import Mathlib

/-!
Verification of the column-fitting routines of colify.py (llnl/util/tty).

The source is Python 2: the slash on integers is floor division, and the
planner state is a small mutable class. The embedding below translates the
two planners, the keyword handling and the grid renderer into pure Lean
functions over Nat, with exceptions modelled as Option / Except values.
-/

set_option maxHeartbeats 1000000

/-- State kept for one candidate column count while fitting columns.
Mirrors the ColumnConfig class of the source: candidate column count,
running total row length, validity flag and per-column widths. -/
structure ColumnConfig where
  cols : Nat
  line_length : Nat
  valid : Bool
  widths : List Nat
deriving Repr, DecidableEq

/-- Fresh planning state for candidate column count c, as built by the
ColumnConfig constructor: zero line length, valid, c zero widths. -/
def ColumnConfig.init (c : Nat) : ColumnConfig :=
  { cols := c, line_length := 0, valid := true, widths := List.replicate c 0 }

/-- Minimum of a list of naturals; the source calls min() on a list its
callers guarantee to be nonempty, so the empty case is arbitrary. -/
def listMin : List Nat → Nat
  | [] => 0
  | [x] => x
  | x :: y :: ys => min x (listMin (y :: ys))

/-- Maximum of a list of naturals; the source calls max() on a list its
callers guarantee to be nonempty, so the empty case is arbitrary. -/
def listMax : List Nat → Nat
  | [] => 0
  | x :: xs => max x (listMax xs)

/-- One update of one candidate configuration for the label with index idx
and length len. Here n is the number of labels, cw the console width, pad
the padding, and i the candidate's position in the configs list (so the
candidate column count is i + 1). Mirrors the body of the inner loop of
config_variable_cols: an invalid config is left untouched, otherwise the
label's column is idx / ((n + i) / (i + 1)), padding is added for every
column but the candidate's last, and the column width and total row length
grow when the label is wider than the column seen so far, re-deciding
validity as total < console width. -/
def stepConf (n cw pad idx len i : Nat) (conf : ColumnConfig) : ColumnConfig :=
  if conf.valid then
    let col := idx / ((n + i) / (i + 1))
    let padded := len + (if col < i then pad else 0)
    let w := conf.widths.getD col 0
    if w < padded then
      { conf with
        line_length := conf.line_length + (padded - w),
        widths := conf.widths.set col padded,
        valid := decide (conf.line_length + (padded - w) < cw) }
    else conf
  else conf

/-- Inner loop of config_variable_cols: update every candidate configuration
for one label, the candidate at list position i0 + k receiving index i0 + k. -/
def stepConfigs (n cw pad idx len : Nat) : Nat → List ColumnConfig → List ColumnConfig
  | _, [] => []
  | i, conf :: rest =>
    stepConf n cw pad idx len i conf :: stepConfigs n cw pad idx len (i + 1) rest

/-- Outer loop of config_variable_cols: feed the labels' lengths, in index
order starting at idx, through every candidate configuration. -/
def runPass (n cw pad : Nat) : Nat → List Nat → List ColumnConfig → List ColumnConfig
  | _, [], configs => configs
  | idx, len :: rest, configs =>
    runPass n cw pad (idx + 1) rest (stepConfigs n cw pad idx len 0 configs)

/-- Evolution of the single candidate at position i under the labels' lengths,
starting at label index idx. This is the per-candidate view of runPass; the
lemma runPass_getElem identifies the two. -/
def evalCand (n cw pad i : Nat) : Nat → List Nat → ColumnConfig → ColumnConfig
  | _, [], conf => conf
  | idx, len :: rest, conf =>
    evalCand n cw pad i (idx + 1) rest (stepConf n cw pad idx len i conf)

/-- Final touch applied to the chosen configuration by config_variable_cols:
drop zero widths and reset cols to the number of remaining widths. -/
def finishConfig (conf : ColumnConfig) : ColumnConfig :=
  let ws := conf.widths.filter (fun w => w != 0)
  { conf with cols := ws.length, widths := ws }

/-- Variable-width column fitting algorithm (config_variable_cols in the
source). The none results model the exceptions the source raises: min() on
an empty list, and the ZeroDivisionError of the bound computation
console_width / (min(lengths) + padding) when the minimum label length and
the padding are both zero. -/
def config_variable_cols (elts : List String) (cw pad : Nat) : Option ColumnConfig :=
  match elts with
  | [] => none
  | _ :: _ =>
    let lengths := elts.map String.length
    if listMin lengths + pad = 0 then none
    else
      let max_cols := min elts.length (max 1 (cw / (listMin lengths + pad)))
      let configs := (List.range max_cols).map (fun i => ColumnConfig.init (i + 1))
      let final := runPass elts.length cw pad 0 lengths configs
      let chosen :=
        match final.reverse.find? (fun c => c.valid) with
        | some c => c
        | none => final.headD (ColumnConfig.init 1)
      some (finishConfig chosen)

/-- Uniform-width column fitting algorithm (config_uniform_cols in the
source): every column is as wide as the longest label plus padding. The
none results model max() on an empty list and the ZeroDivisionError of
console_width / max_len when the longest label plus padding is zero. -/
def config_uniform_cols (elts : List String) (cw pad : Nat) : Option ColumnConfig :=
  match elts with
  | [] => none
  | _ :: _ =>
    let max_len := listMax (elts.map String.length) + pad
    if max_len = 0 then none
    else
      let cols := min elts.length (max 1 (cw / max_len))
      some { cols := cols, line_length := 0, valid := true,
             widths := List.replicate cols max_len }

/-- Exceptions the colify entry point can raise, by Python exception class.
nameError records the undefined name being looked up. -/
inductive PyErr where
  | typeError (msg : String)
  | valueError (msg : String)
  | nameError (missing : String)
  | zeroDivisionError
  | indexError
deriving Repr, DecidableEq

/-- Keyword options of colify, as the record the source's pops produce. The
defaults of the source are output = sys.stdout, indent 0, padding 2,
tty None, method "variable", width None. output is reduced to the one bit
the core reads from it, the isatty() collaborator answer; width is kept as
an integer option (a non-integer width is outside this model, which is
noted where the source would reject it); unknownKeys lists the keyword
arguments left after the pops, in dictionary iteration order. -/
structure ColifyOptions where
  output_isatty : Bool
  indent : Nat
  padding : Nat
  tty : Option Bool
  method : String
  width : Option Int
  unknownKeys : List String
deriving Repr, DecidableEq

/-- Left justification to width w, the "%-Ns" format of the source: pad with
spaces on the right, never truncate. -/
def ljust (s : String) (w : Nat) : String :=
  s ++ String.mk (List.replicate (w - s.length) ' ')

/-- Format of one rendered cell: some w is left justification to w, none the
bare "%s" format the source appends for the last column. -/
def applyFmt : Option Nat → String → String
  | some w, s => ljust s w
  | none, s => s

/-- Inner rendering loop over the column indices of one row: look up the
element at col * rows + row, list indexing raising IndexError past the end
as in the source. The transcript of writes so far is threaded through and
returned with the error when one is raised. -/
def renderCells (elts : List String) (fmts : List (Option Nat)) (rows row : Nat) :
    List Nat → List String → Except (PyErr × List String) (List String)
  | [], acc => .ok acc
  | col :: cs, acc =>
    match elts[col * rows + row]? with
    | none => .error (.indexError, acc)
    | some s => renderCells elts fmts rows row cs (acc ++ [applyFmt (fmts.getD col none) s])

/-- Outer rendering loop of colify over the rows: write the indent, render
the row's cells, write the newline, and drop the last column once
rows_last_col rows have been emitted. The counter rem counts the rows still
to emit. -/
def renderRows (elts : List String) (fmts : List (Option Nat)) (ind rows_last_col : Nat)
    (rows : Nat) : Nat → Nat → Nat → List String → Except (PyErr × List String) (List String)
  | 0, _, _, acc => .ok acc
  | rem + 1, row, cols, acc =>
    match renderCells elts fmts rows row (List.range cols)
        (acc ++ [String.mk (List.replicate ind ' ')]) with
    | .error e => .error e
    | .ok acc2 =>
      let cols2 := if row + 1 = rows_last_col then cols - 1 else cols
      renderRows elts fmts ind rows_last_col rows rem (row + 1) cols2 (acc2 ++ ["\n"])

/-- Effective console width handed to the planners: the width option when a
nonzero integer was supplied (zero is falsy in the source and treated as
unset), otherwise the terminal size collaborator's column count, minus the
indent, floored at one. -/
def effectiveConsoleCols (opts : ColifyOptions) (term_cols : Int) : Nat :=
  (max 1 ((match opts.width with
           | none => term_cols
           | some w => if w = 0 then term_cols else w) - (opts.indent : Int))).toNat

/-- Apostrophe as a one-character string, for rebuilding the source's error
message text. -/
def squote : String := String.singleton (Char.ofNat 39)

/-- The colify entry point. term_cols is the answer of the external
terminal_size collaborator (its column count; the row count is unused).
The result is either the raised exception paired with the transcript of
writes made before it, or the transcript together with the returned pair
(config.cols, config.widths). A non-integer width option is the one source
behavior outside this model (its ValueError branch is unreachable here
because width is modelled as an integer option). -/
def colify (elts : List String) (opts : ColifyOptions) (term_cols : Int) :
    Except (PyErr × List String) (List String × Nat × List Nat) :=
  match opts.unknownKeys with
  | k :: _ =>
    .error (.typeError (squote ++ k ++ squote ++
      " is an invalid keyword argument for this function."), [])
  | [] =>
    match elts with
    | [] => .ok ([], 0, [])
    | _ :: _ =>
      if (opts.tty ≠ some true) ∧ (opts.tty = some false ∨ opts.output_isatty = false) then
        .ok (elts.map (fun e => e ++ "\n"), 1, [listMax (elts.map String.length)])
      else
        let cc := effectiveConsoleCols opts term_cols
        let pcfg : Except (PyErr × List String) ColumnConfig :=
          if opts.method = "variable" then
            match config_variable_cols elts cc opts.padding with
            | some cfg => .ok cfg
            | none => .error (.zeroDivisionError, [])
          else if opts.method = "uniform" then
            match config_uniform_cols elts cc opts.padding with
            | some cfg => .ok cfg
            | none => .error (.zeroDivisionError, [])
          else
            .error (.nameError "allowed_methods", [])
        match pcfg with
        | .error e => .error e
        | .ok cfg =>
          if cfg.cols = 0 then .error (.zeroDivisionError, [])
          else
            let rows := (elts.length + cfg.cols - 1) / cfg.cols
            let rows_last_col := elts.length % rows
            let fmts := cfg.widths.dropLast.map some ++ [none]
            match renderRows elts fmts opts.indent rows_last_col rows rows 0 cfg.cols [] with
            | .error e => .error e
            | .ok out => .ok (out, cfg.cols, cfg.widths)

/-- Running maximum of the lengths fed in so far, frozen the first time it
reaches the console width. This is the single width the one-column
candidate of the variable planner carries: the candidate stops updating
once it is invalid, so labels after the freeze point are ignored. -/
def frozenMax (cw : Nat) : Nat → List Nat → Nat
  | m, [] => m
  | m, l :: ls => if cw ≤ m then m else frozenMax cw (max m l) ls

/-- Column that the label with index idx lands in for candidate column
count c over n labels: idx / ((n + c - 1) / c), the source's column-major
fill with ceil(n / c) rows. -/
def colOf (n c idx : Nat) : Nat :=
  idx / ((n + c - 1) / c)

/-- Length of a label as accounted to column k of candidate count c:
padding is added to every column but the candidate's last. -/
def padLen (c pad k l : Nat) : Nat :=
  l + (if k < c - 1 then pad else 0)

/-- Final width of column k of candidate count c after an uninterrupted
pass over the lengths starting at index idx: the maximum accounted length
of the labels that land in column k, zero when none do. -/
def colAcc (n c pad k : Nat) : Nat → List Nat → Nat
  | _, [] => 0
  | idx, l :: ls =>
    max (if colOf n c idx = k then padLen c pad k l else 0) (colAcc n c pad k (idx + 1) ls)

/-- Number of columns that actually receive a label under candidate count c
for n labels: one past the column of the last label. -/
def usedCols (n c : Nat) : Nat :=
  (n - 1) / ((n + c - 1) / c) + 1

/-- Position of the last candidate, below m, that the predicate accepts.
This is what scanning the reversed candidate list with find? computes. -/
def largestHit (p : Nat → Bool) : Nat → Option Nat
  | 0 => none
  | m + 1 => if p m then some m else largestHit p m

/-- Widths an uninterrupted pass gives candidate count c: for each column
its maximum accounted label length. -/
def specWidths (n c pad : Nat) (L : List Nat) : List Nat :=
  (List.range c).map (fun k => colAcc n c pad k 0 L)

/-- Candidate bound of the variable planner: console width over minimum
label length plus padding, at least one, at most the number of labels. -/
def maxColsOf (elts : List String) (cw pad : Nat) : Nat :=
  min elts.length (max 1 (cw / (listMin (elts.map String.length) + pad)))

/-- Final state of the candidate at position j after the variable planner's
pass over all labels. -/
def candFinal (elts : List String) (cw pad j : Nat) : ColumnConfig :=
  evalCand elts.length cw pad j 0 (elts.map String.length) (ColumnConfig.init (j + 1))

/-!
Theorems. Each claim of the specification gets one theorem below, with a
counterexample theorem where the claim as stated fails on the code.
-/

/-- C4: the claim asks the variable planner's column-count bound to be
guarded against a zero minimum label length; the code is not guarded. On
the label list [""] with padding 0 the bound computation
console_width / (min(lengths) + padding) divides by zero, and the
exception surfaces through colify before anything is written. -/
theorem C4_zero_division_evaluation :
    config_variable_cols [""] 80 0 = none ∧
    colify [""] ⟨true, 0, 0, some true, "variable", some 80, []⟩ 0 =
      .error (.zeroDivisionError, []) := by
  constructor <;> rfl

/-- C7: an unrecognized method value does fail, but not with the ValueError
the source tries to raise: building its message reads the name
allowed_methods, which is defined nowhere in the module, so the call dies
with a NameError instead. Nothing is written first. -/
theorem C7_unknown_method_name_error (elts : List String) (opts : ColifyOptions)
    (tc : Int) (hk : opts.unknownKeys = []) (he : elts ≠ [])
    (ht : opts.tty = some true) (hv : opts.method ≠ "variable")
    (hu : opts.method ≠ "uniform") :
    colify elts opts tc = .error (.nameError "allowed_methods", []) := by
  obtain ⟨isatty, ind, pad, tty, method, w, keys⟩ := opts
  simp only at hk ht hv hu
  subst hk ht
  cases elts with
  | nil => exact absurd rfl he
  | cons a as =>
    simp [colify, hv, hu]

/-- C7 witness: colify on one label with method "bogus" raises the
NameError for allowed_methods. -/
theorem C7_witness :
    colify ["a"] ⟨true, 0, 2, some true, "bogus", some 80, []⟩ 0 =
      .error (.nameError "allowed_methods", []) :=
  C7_unknown_method_name_error ["a"] ⟨true, 0, 2, some true, "bogus", some 80, []⟩ 0
    rfl (by decide) rfl (by decide) (by decide)

/-- C8: any unknown keyword option raises a TypeError whose message names
the first offending key, before anything is written and before any layout
work: the transcript paired with the error is empty. -/
theorem C8_unknown_option_type_error (elts : List String) (opts : ColifyOptions)
    (tc : Int) (k : String) (rest : List String) (hk : opts.unknownKeys = k :: rest) :
    colify elts opts tc =
      .error (.typeError (squote ++ k ++ squote ++
        " is an invalid keyword argument for this function."), []) := by
  obtain ⟨isatty, ind, pad, tty, method, w, keys⟩ := opts
  simp only at hk
  subst hk
  rfl

/-- C8 witness: the single unknown option foo raises the TypeError naming
foo with nothing written. -/
theorem C8_witness :
    colify ["a"] ⟨true, 0, 2, none, "variable", none, ["foo"]⟩ 0 =
      .error (.typeError (squote ++ "foo" ++ squote ++
        " is an invalid keyword argument for this function."), []) :=
  C8_unknown_option_type_error ["a"] ⟨true, 0, 2, none, "variable", none, ["foo"]⟩ 0
    "foo" [] rfl

/-- C9: with the tty option unset and the sink reported non-interactive,
colify writes every label verbatim on its own line and returns the pair
(1, (max label length,)). -/
theorem C9_noninteractive_one_per_line (elts : List String) (opts : ColifyOptions)
    (tc : Int) (hk : opts.unknownKeys = []) (he : elts ≠ [])
    (ht : opts.tty = none) (ha : opts.output_isatty = false) :
    colify elts opts tc =
      .ok (elts.map (fun e => e ++ "\n"), 1, [listMax (elts.map String.length)]) := by
  obtain ⟨isatty, ind, pad, tty, method, w, keys⟩ := opts
  simp only at hk ht ha
  subst hk ht ha
  cases elts with
  | nil => exact absurd rfl he
  | cons a as => simp [colify]

/-- C9 witness: two labels on a non-interactive sink come out one per line
with the reported layout (1, (2,)). -/
theorem C9_witness :
    colify ["a", "bb"] ⟨false, 0, 2, none, "variable", none, []⟩ 0 =
      .ok (["a\n", "bb\n"], 1, [2]) :=
  C9_noninteractive_one_per_line ["a", "bb"] ⟨false, 0, 2, none, "variable", none, []⟩ 0
    rfl (by decide) rfl rfl

/-- C6: colify is not atomic with respect to its sink. Six one-character
labels with the uniform method at width 12 give 4 columns of 2 rows for 6
elements; rendering row 0 writes the indent and three cells and then reads
element index 6 past the end of the list, raising IndexError after part of
the grid is already written. -/
theorem C6_partial_output_evaluation :
    ∃ partial_out, colify ["a", "b", "c", "d", "e", "f"]
        ⟨true, 0, 2, some true, "uniform", some 12, []⟩ 0 =
      .error (.indexError, partial_out) ∧ partial_out ≠ [] := by
  refine ⟨["", "a  ", "c  ", "e  "], rfl, by decide⟩

/-- C1 counterexample: at available width 1 no multi-column arrangement
fits the single label "abc", and the uniform planner does return one
column, but its width is 5 = longest label length + padding, not the
longest label's length 3 the claim promises. -/
theorem C1_counterexample :
    ∃ cfg, config_uniform_cols ["abc"] 1 2 = some cfg ∧ cfg.cols = 1 ∧
      cfg.widths = [5] ∧ listMax (["abc"].map String.length) = 3 ∧ (5 : Nat) ≠ 3 := by
  refine ⟨_, rfl, rfl, rfl, rfl, by decide⟩

/-- C3 counterexample: the uniform planner on ["aa", "aa"] at width 8 with
padding 2 returns the non-fallback two-column layout with widths [4, 4]
(padding already folded into each width), and the claim's bound
sum(widths) + (cols - 1) * padding = 10 exceeds the available width 8. -/
theorem C3_counterexample :
    ∃ cfg, config_uniform_cols ["aa", "aa"] 8 2 = some cfg ∧ cfg.cols = 2 ∧
      cfg.widths = [4, 4] ∧
      ¬(cfg.widths.sum + (cfg.cols - 1) * 2 ≤ 8) := by
  refine ⟨_, rfl, rfl, rfl, by decide⟩

/-- C5 counterexample: on the single label "ab" at available width 2 with
padding 1, the one-column candidate's accumulated total becomes exactly 2 =
available_width, and the code marks it invalid (valid test is a strict
less-than), while the claim says a total equal to the available width
leaves the candidate valid. -/
theorem C5_counterexample :
    ∃ cfg, config_variable_cols ["ab"] 2 1 = some cfg ∧
      cfg.line_length = 2 ∧ cfg.valid = false := by
  refine ⟨_, rfl, rfl, rfl⟩

/-!
Shared arithmetic and list lemmas.
-/

/-- Ceiling-division bound: n labels fit in c columns of (n + c - 1) / c rows. -/
theorem le_mul_ceil_div (n c : Nat) (hc : 1 ≤ c) : n ≤ c * ((n + c - 1) / c) := by
  have h := Nat.div_add_mod (n + c - 1) c
  have h2 : (n + c - 1) % c < c := Nat.mod_lt _ hc
  omega

/-- Row count of a candidate is positive once there is a label. -/
theorem ceil_div_pos (n c : Nat) (hn : 1 ≤ n) (hc : 1 ≤ c) : 1 ≤ (n + c - 1) / c := by
  rw [Nat.one_le_div_iff hc]; omega

/-- Labels land in columns 0 .. c - 1. -/
theorem colOf_lt (n c idx : Nat) (hc : 1 ≤ c) (hidx : idx < n) : colOf n c idx < c := by
  have hr : 1 ≤ (n + c - 1) / c := ceil_div_pos n c (by omega) hc
  have hb := le_mul_ceil_div n c hc
  rw [colOf, Nat.div_lt_iff_lt_mul hr]
  omega

/-- More candidate columns means at most as many rows. -/
theorem ceil_div_antitone (n c c' : Nat) (hc : 1 ≤ c) (hcc : c ≤ c') :
    (n + c' - 1) / c' ≤ (n + c - 1) / c := by
  have hb := le_mul_ceil_div n c hc
  have hc' : 0 < c' := by omega
  rw [Nat.div_le_iff_le_mul_add_pred hc']
  have h1 : c * ((n + c - 1) / c) ≤ c' * ((n + c - 1) / c) :=
    Nat.mul_le_mul_right _ hcc
  have h2 : c' * ((n + c - 1) / c) = ((n + c - 1) / c) * c' := Nat.mul_comm _ _
  omega

/-- A candidate never uses more columns than its count. -/
theorem usedCols_le (n c : Nat) (hn : 1 ≤ n) (hc : 1 ≤ c) : usedCols n c ≤ c := by
  have hr : 1 ≤ (n + c - 1) / c := ceil_div_pos n c hn hc
  have hb := le_mul_ceil_div n c hc
  have h : (n - 1) / ((n + c - 1) / c) < c := by
    rw [Nat.div_lt_iff_lt_mul hr]; omega
  rw [usedCols]; omega

/-- More candidate columns means at least as many used columns. -/
theorem usedCols_mono (n c c' : Nat) (hn : 1 ≤ n) (hc : 1 ≤ c) (hcc : c ≤ c') :
    usedCols n c ≤ usedCols n c' := by
  have h1 : (n + c' - 1) / c' ≤ (n + c - 1) / c := ceil_div_antitone n c c' hc hcc
  have h2 : 0 < (n + c' - 1) / c' := ceil_div_pos n c' hn (by omega)
  have h3 : (n - 1) / ((n + c - 1) / c) ≤ (n - 1) / ((n + c' - 1) / c') :=
    Nat.div_le_div_left h1 h2
  rw [usedCols, usedCols]; omega

/-- Every member is at most the list maximum. -/
theorem le_listMax (l : List Nat) (x : Nat) (hx : x ∈ l) : x ≤ listMax l := by
  induction l with
  | nil => cases hx
  | cons a as ih =>
    rw [listMax]
    rcases List.mem_cons.mp hx with h | h
    · subst h; exact Nat.le_max_left _ _
    · exact le_trans (ih h) (Nat.le_max_right _ _)

/-- The maximum of a nonempty list is one of its members. -/
theorem listMax_mem (l : List Nat) (hl : l ≠ []) : listMax l ∈ l := by
  induction l with
  | nil => exact absurd rfl hl
  | cons a as ih =>
    rw [listMax]
    by_cases h : as = []
    · subst h; simp [listMax]
    · rcases Nat.le_total a (listMax as) with hle | hle
      · rw [Nat.max_eq_right hle]; exact List.mem_cons_of_mem _ (ih h)
      · rw [Nat.max_eq_left hle]; exact List.mem_cons_self _ _

/-- The minimum of a list bounds every member from below. -/
theorem listMin_le (l : List Nat) (x : Nat) (hx : x ∈ l) : listMin l ≤ x := by
  induction l with
  | nil => cases hx
  | cons a as ih =>
    cases as with
    | nil =>
      rw [List.mem_singleton] at hx
      subst hx; simp [listMin]
    | cons b bs =>
      rw [listMin]
      rcases List.mem_cons.mp hx with h | h
      · subst h; exact Nat.min_le_left _ _
      · exact le_trans (Nat.min_le_right _ _) (ih h)

/-- Setting one entry trades its old value for the new one in the sum. -/
theorem sum_set_add (l : List Nat) (k v : Nat) (hk : k < l.length) :
    (l.set k v).sum + l.getD k 0 = l.sum + v := by
  induction l generalizing k with
  | nil => cases hk
  | cons a as ih =>
    cases k with
    | zero => simp [List.set]; omega
    | succ k' =>
      have hk' : k' < as.length := by simpa using hk
      have h := ih k' hk'
      rw [List.set_cons_succ, List.sum_cons, List.sum_cons, List.getD_cons_succ]
      omega

/-- Dropping the zero entries of a list of naturals keeps its sum. -/
theorem sum_filter_nz (l : List Nat) : (l.filter (fun w => w != 0)).sum = l.sum := by
  induction l with
  | nil => rfl
  | cons a as ih =>
    by_cases h : a = 0
    · subst h; simp [List.filter_cons, ih]
    · simp [List.filter_cons, h, ih]

/-- Value of getD after a set, in one total statement. -/
theorem getD_set_ite (l : List Nat) (i j a : Nat) :
    (l.set i a).getD j 0 = if i = j ∧ i < l.length then a else l.getD j 0 := by
  induction l generalizing i j with
  | nil => simp [List.set]
  | cons x xs ih =>
    cases i with
    | zero =>
      cases j with
      | zero => simp [List.set]
      | succ j' => simp [List.set]
    | succ i' =>
      cases j with
      | zero => simp [List.set]
      | succ j' =>
        rw [List.set, List.getD_cons_succ, List.getD_cons_succ, ih i' j']
        have hiff : (i' + 1 = j' + 1 ∧ i' + 1 < (x :: xs).length) ↔
            (i' = j' ∧ i' < xs.length) := by
          rw [List.length_cons]; omega
        by_cases h : i' = j' ∧ i' < xs.length
        · rw [if_pos h, if_pos (hiff.mpr h)]
        · rw [if_neg h, if_neg (fun hc => h (hiff.mp hc))]

/-!
Evolution of a single candidate configuration.
-/

/-- An invalid configuration is left untouched by a step. -/
theorem stepConf_invalid (n cw pad idx len i : Nat) (conf : ColumnConfig)
    (h : conf.valid = false) : stepConf n cw pad idx len i conf = conf := by
  simp [stepConf, h]

/-- An invalid configuration is frozen for the rest of the pass. -/
theorem evalCand_invalid (n cw pad i idx : Nat) (L : List Nat) (conf : ColumnConfig)
    (h : conf.valid = false) : evalCand n cw pad i idx L conf = conf := by
  induction L generalizing idx conf with
  | nil => rfl
  | cons l ls ih =>
    rw [evalCand, stepConf_invalid n cw pad idx l i conf h]
    exact ih (idx + 1) conf h

/-- A configuration that ends a pass valid was valid when the pass began. -/
theorem evalCand_valid_of (n cw pad i idx : Nat) (L : List Nat) (conf : ColumnConfig)
    (h : (evalCand n cw pad i idx L conf).valid = true) : conf.valid = true := by
  cases hv : conf.valid with
  | true => rfl
  | false =>
    rw [evalCand_invalid n cw pad i idx L conf hv] at h
    rw [hv] at h
    cases h

/-- Three-way case analysis of a step: the configuration was invalid and is
untouched, or it was valid and the label does not widen its column, or it
was valid and the update fires. -/
theorem stepConf_cases (n cw pad idx len i : Nat) (conf : ColumnConfig) :
    (conf.valid = false ∧ stepConf n cw pad idx len i conf = conf) ∨
    (conf.valid = true ∧
      ¬(conf.widths.getD (idx / ((n + i) / (i + 1))) 0 <
        len + (if idx / ((n + i) / (i + 1)) < i then pad else 0)) ∧
      stepConf n cw pad idx len i conf = conf) ∨
    (conf.valid = true ∧
      conf.widths.getD (idx / ((n + i) / (i + 1))) 0 <
        len + (if idx / ((n + i) / (i + 1)) < i then pad else 0) ∧
      stepConf n cw pad idx len i conf =
        { cols := conf.cols,
          line_length := conf.line_length +
            (len + (if idx / ((n + i) / (i + 1)) < i then pad else 0) -
              conf.widths.getD (idx / ((n + i) / (i + 1))) 0),
          valid := decide (conf.line_length +
            (len + (if idx / ((n + i) / (i + 1)) < i then pad else 0) -
              conf.widths.getD (idx / ((n + i) / (i + 1))) 0) < cw),
          widths := conf.widths.set (idx / ((n + i) / (i + 1)))
            (len + (if idx / ((n + i) / (i + 1)) < i then pad else 0)) }) := by
  cases hv : conf.valid with
  | false => exact Or.inl ⟨rfl, by simp [stepConf, hv]⟩
  | true =>
    by_cases hlt : conf.widths.getD (idx / ((n + i) / (i + 1))) 0 <
        len + (if idx / ((n + i) / (i + 1)) < i then pad else 0)
    · refine Or.inr (Or.inr ⟨rfl, hlt, ?_⟩)
      simp only [stepConf, hv, if_true, if_pos hlt]
    · refine Or.inr (Or.inl ⟨rfl, hlt, ?_⟩)
      simp only [stepConf, hv, if_true, if_neg hlt]

/-- A step never touches the candidate count field. -/
theorem stepConf_cols (n cw pad idx len i : Nat) (conf : ColumnConfig) :
    (stepConf n cw pad idx len i conf).cols = conf.cols := by
  rcases stepConf_cases n cw pad idx len i conf with ⟨hv, hs⟩ | ⟨hv, hge, hs⟩ | ⟨hv, hlt, hs⟩ <;>
    rw [hs]

/-- A pass never touches the candidate count field. -/
theorem evalCand_cols (n cw pad i idx : Nat) (L : List Nat) (conf : ColumnConfig) :
    (evalCand n cw pad i idx L conf).cols = conf.cols := by
  induction L generalizing idx conf with
  | nil => rfl
  | cons l ls ih =>
    rw [evalCand, ih (idx + 1) (stepConf n cw pad idx l i conf), stepConf_cols]

/-- A step keeps the number of width slots. -/
theorem stepConf_widths_length (n cw pad idx len i : Nat) (conf : ColumnConfig) :
    (stepConf n cw pad idx len i conf).widths.length = conf.widths.length := by
  rcases stepConf_cases n cw pad idx len i conf with ⟨hv, hs⟩ | ⟨hv, hge, hs⟩ | ⟨hv, hlt, hs⟩ <;>
    rw [hs]
  simp

/-- A pass keeps the number of width slots. -/
theorem evalCand_widths_length (n cw pad i idx : Nat) (L : List Nat) (conf : ColumnConfig) :
    (evalCand n cw pad i idx L conf).widths.length = conf.widths.length := by
  induction L generalizing idx conf with
  | nil => rfl
  | cons l ls ih =>
    rw [evalCand, ih (idx + 1) (stepConf n cw pad idx l i conf), stepConf_widths_length]

/-- The column picked for a label with index below n fits in i + 1 slots. -/
theorem col_lt_length (n i idx : Nat) (hidx : idx < n) :
    idx / ((n + i) / (i + 1)) < i + 1 := by
  have h := colOf_lt n (i + 1) idx (by omega) hidx
  have he : n + (i + 1) - 1 = n + i := by omega
  rw [colOf, he] at h
  exact h

/-- The valid flag always records whether the running total is below the
console width, provided it does so initially. -/
theorem stepConf_valid_iff (n cw pad idx len i : Nat) (conf : ColumnConfig)
    (h : conf.valid = decide (conf.line_length < cw)) :
    (stepConf n cw pad idx len i conf).valid =
      decide ((stepConf n cw pad idx len i conf).line_length < cw) := by
  rcases stepConf_cases n cw pad idx len i conf with ⟨hv, hs⟩ | ⟨hv, hge, hs⟩ | ⟨hv, hlt, hs⟩ <;>
    rw [hs]
  · exact h
  · exact h

/-- The valid flag after a pass still records whether the running total is
below the console width. -/
theorem evalCand_valid_iff (n cw pad i idx : Nat) (L : List Nat) (conf : ColumnConfig)
    (h : conf.valid = decide (conf.line_length < cw)) :
    (evalCand n cw pad i idx L conf).valid =
      decide ((evalCand n cw pad i idx L conf).line_length < cw) := by
  induction L generalizing idx conf with
  | nil => exact h
  | cons l ls ih =>
    rw [evalCand]
    exact ih (idx + 1) _ (stepConf_valid_iff n cw pad idx l i conf h)

/-- A step keeps the running total equal to the sum of the widths. -/
theorem stepConf_line_sum (n cw pad idx len i : Nat) (conf : ColumnConfig)
    (hlen : conf.widths.length = i + 1) (hidx : idx < n)
    (h : conf.line_length = conf.widths.sum) :
    (stepConf n cw pad idx len i conf).line_length =
      (stepConf n cw pad idx len i conf).widths.sum := by
  rcases stepConf_cases n cw pad idx len i conf with ⟨hv, hs⟩ | ⟨hv, hge, hs⟩ | ⟨hv, hlt, hs⟩ <;>
    rw [hs]
  · exact h
  · exact h
  · have hcol : idx / ((n + i) / (i + 1)) < conf.widths.length := by
      rw [hlen]; exact col_lt_length n i idx hidx
    have hs2 := sum_set_add conf.widths (idx / ((n + i) / (i + 1)))
      (len + if idx / ((n + i) / (i + 1)) < i then pad else 0) hcol
    dsimp only
    omega

/-- The running total equals the sum of the widths after a pass. -/
theorem evalCand_line_sum (n cw pad i idx : Nat) (L : List Nat) (conf : ColumnConfig)
    (hlen : conf.widths.length = i + 1) (hbound : idx + L.length ≤ n)
    (h : conf.line_length = conf.widths.sum) :
    (evalCand n cw pad i idx L conf).line_length =
      (evalCand n cw pad i idx L conf).widths.sum := by
  induction L generalizing idx conf with
  | nil => exact h
  | cons l ls ih =>
    rw [evalCand]
    have hlc : (l :: ls).length = ls.length + 1 := rfl
    refine ih (idx + 1) _ ?_ (by omega) ?_
    · rw [stepConf_widths_length]; exact hlen
    · exact stepConf_line_sum n cw pad idx l i conf hlen (by omega) h

/-- Width slots never shrink under a step. -/
theorem stepConf_getD_le (n cw pad idx len i k : Nat) (conf : ColumnConfig) :
    conf.widths.getD k 0 ≤ (stepConf n cw pad idx len i conf).widths.getD k 0 := by
  rcases stepConf_cases n cw pad idx len i conf with ⟨hv, hs⟩ | ⟨hv, hge, hs⟩ | ⟨hv, hlt, hs⟩ <;>
    rw [hs]
  rw [getD_set_ite]
  by_cases hck : idx / ((n + i) / (i + 1)) = k ∧
      idx / ((n + i) / (i + 1)) < conf.widths.length
  · rw [if_pos hck]
    obtain ⟨hk1, hk2⟩ := hck
    subst hk1
    omega
  · rw [if_neg hck]

/-- Width slots never shrink over a pass. -/
theorem evalCand_getD_le (n cw pad i idx k : Nat) (L : List Nat) (conf : ColumnConfig) :
    conf.widths.getD k 0 ≤ (evalCand n cw pad i idx L conf).widths.getD k 0 := by
  induction L generalizing idx conf with
  | nil => exact le_refl _
  | cons l ls ih =>
    rw [evalCand]
    exact le_trans (stepConf_getD_le n cw pad idx l i k conf) (ih (idx + 1) _)

/-- After a valid configuration processes a label, the slot of the label's
column is at least the label's length. -/
theorem stepConf_covers (n cw pad idx len i : Nat) (conf : ColumnConfig)
    (hval : conf.valid = true) (hcol : idx / ((n + i) / (i + 1)) < conf.widths.length) :
    len ≤ (stepConf n cw pad idx len i conf).widths.getD (idx / ((n + i) / (i + 1))) 0 := by
  rcases stepConf_cases n cw pad idx len i conf with ⟨hv, hs⟩ | ⟨hv, hge, hs⟩ | ⟨hv, hlt, hs⟩
  · rw [hval] at hv; cases hv
  · rw [hs]; omega
  · rw [hs, getD_set_ite, if_pos ⟨rfl, hcol⟩]
    omega

/-- A configuration that stays valid through a pass ends with, for every
label processed, some width slot at least that label's length. -/
theorem evalCand_covers (n cw pad i idx : Nat) (L : List Nat) (conf : ColumnConfig)
    (hlen : conf.widths.length = i + 1) (hbound : idx + L.length ≤ n)
    (hval : (evalCand n cw pad i idx L conf).valid = true) :
    ∀ len ∈ L, ∃ k, k < i + 1 ∧ len ≤ (evalCand n cw pad i idx L conf).widths.getD k 0 := by
  induction L generalizing idx conf with
  | nil => intro len h; cases h
  | cons l ls ih =>
    intro len hmem
    have hcv : conf.valid = true := evalCand_valid_of n cw pad i idx (l :: ls) conf hval
    rw [evalCand] at hval ⊢
    rcases List.mem_cons.mp hmem with rfl | hmem2
    · have hidx : idx < n := by
        have hc : (len :: ls).length = ls.length + 1 := rfl
        omega
      have hcol : idx / ((n + i) / (i + 1)) < i + 1 := col_lt_length n i idx hidx
      refine ⟨idx / ((n + i) / (i + 1)), hcol, ?_⟩
      have h1 := stepConf_covers n cw pad idx len i conf hcv (by rw [hlen]; exact hcol)
      have h2 := evalCand_getD_le n cw pad i (idx + 1) (idx / ((n + i) / (i + 1))) ls
        (stepConf n cw pad idx len i conf)
      exact le_trans h1 h2
    · have hlc : (l :: ls).length = ls.length + 1 := rfl
      exact ih (idx + 1) (stepConf n cw pad idx l i conf)
        (by rw [stepConf_widths_length]; exact hlen) (by omega) hval len hmem2

/-- A width list with a positive slot keeps at least one entry after the
zero filter. -/
theorem filter_nz_pos (l : List Nat) (k : Nat) (hk : k < l.length) (h : 1 ≤ l.getD k 0) :
    1 ≤ (l.filter (fun w => w != 0)).length := by
  have hx : l.getD k 0 ∈ l := by
    rw [List.getD_eq_getElem l 0 hk]
    exact List.getElem_mem hk
  have hf : l.getD k 0 ∈ l.filter (fun w => w != 0) :=
    List.mem_filter.mpr ⟨hx, by simp only [bne_iff_ne, ne_eq]; omega⟩
  have hne : l.filter (fun w => w != 0) ≠ [] := List.ne_nil_of_mem hf
  have hp := List.length_pos.mpr hne
  omega

/-!
From the shared pass to per-candidate evolutions, and the choice of the
final configuration.
-/

/-- Entry k of the inner loop's output is the step of entry k, the
candidate position being the starting position plus k. -/
theorem stepConfigs_getElem? (n cw pad idx len i0 k : Nat) (cs : List ColumnConfig) :
    (stepConfigs n cw pad idx len i0 cs)[k]? =
      (cs[k]?).map (stepConf n cw pad idx len (i0 + k)) := by
  induction cs generalizing i0 k with
  | nil => simp [stepConfigs]
  | cons c rest ih =>
    cases k with
    | zero => simp [stepConfigs]
    | succ k2 =>
      rw [stepConfigs]
      simp only [List.getElem?_cons_succ]
      rw [ih (i0 + 1) k2]
      have he : i0 + 1 + k2 = i0 + (k2 + 1) := by omega
      rw [he]

/-- Entry k of the pass's output is the evolution of entry k as the
candidate at position k. -/
theorem runPass_getElem? (n cw pad idx k : Nat) (L : List Nat) (cs : List ColumnConfig) :
    (runPass n cw pad idx L cs)[k]? = (cs[k]?).map (evalCand n cw pad k idx L) := by
  induction L generalizing idx cs with
  | nil => cases h : cs[k]? <;> simp [runPass, h, evalCand]
  | cons l ls ih =>
    rw [runPass, ih (idx + 1) (stepConfigs n cw pad idx l 0 cs), stepConfigs_getElem?]
    cases h : cs[k]? <;> simp [h, evalCand]

/-- The pass over the fresh candidate list is the list of per-candidate
evolutions. -/
theorem runPass_init_eq_map (n cw pad m : Nat) (L : List Nat) :
    runPass n cw pad 0 L ((List.range m).map (fun j => ColumnConfig.init (j + 1))) =
      (List.range m).map (fun j => evalCand n cw pad j 0 L (ColumnConfig.init (j + 1))) := by
  apply List.ext_getElem?
  intro k
  rw [runPass_getElem?, List.getElem?_map, List.getElem?_map]
  by_cases hk : k < m
  · rw [List.getElem?_range hk]
    rfl
  · have h1 : (List.range m)[k]? = none := by
      rw [List.getElem?_eq_none]
      rw [List.length_range]
      omega
    rw [h1]
    rfl

/-- Scanning the reversed candidate list with find? picks the highest
accepted position. -/
theorem find?_reverse_largestHit (p : ColumnConfig → Bool) (g : Nat → ColumnConfig) (m : Nat) :
    ((List.range m).map g).reverse.find? p = (largestHit (fun j => p (g j)) m).map g := by
  induction m with
  | zero => rfl
  | succ m2 ih =>
    have hrev : ((List.range (m2 + 1)).map g).reverse =
        g m2 :: ((List.range m2).map g).reverse := by
      rw [List.range_succ, List.map_append]
      simp
    rw [hrev]
    show _ = (if p (g m2) then some m2 else largestHit (fun j => p (g j)) m2).map g
    by_cases hp : p (g m2)
    · rw [List.find?_cons_of_pos _ hp, if_pos hp]
      rfl
    · rw [List.find?_cons_of_neg _ hp, if_neg hp, ih]

/-- A hit returned by largestHit is in range and accepted. -/
theorem largestHit_some (p : Nat → Bool) (m j : Nat) (h : largestHit p m = some j) :
    j < m ∧ p j = true := by
  induction m with
  | zero => cases h
  | succ m2 ih =>
    rw [largestHit] at h
    by_cases hp : p m2
    · rw [if_pos hp] at h
      cases h
      exact ⟨Nat.lt_succ_self _, hp⟩
    · rw [if_neg hp] at h
      have h2 := ih h
      exact ⟨by omega, h2.2⟩

/-- largestHit returns a position at least as high as any accepted one. -/
theorem largestHit_ge (p : Nat → Bool) (m j : Nat) (hj : j < m) (hp : p j = true) :
    ∃ j2, largestHit p m = some j2 ∧ j ≤ j2 := by
  induction m with
  | zero => omega
  | succ m2 ih =>
    rw [largestHit]
    by_cases hpm : p m2
    · exact ⟨m2, by rw [if_pos hpm], by omega⟩
    · have hne : j ≠ m2 := by
        intro he
        rw [← he] at hpm
        exact hpm hp
      obtain ⟨j2, hj2, hle⟩ := ih (by omega)
      exact ⟨j2, by rw [if_neg hpm]; exact hj2, hle⟩

/-- When largestHit finds nothing, no position is accepted. -/
theorem largestHit_none (p : Nat → Bool) (m : Nat) (h : largestHit p m = none) :
    ∀ j, j < m → p j = false := by
  induction m with
  | zero => omega
  | succ m2 ih =>
    intro j hj
    rw [largestHit] at h
    by_cases hpm : p m2
    · rw [if_pos hpm] at h
      cases h
    · rw [if_neg hpm] at h
      by_cases hje : j = m2
      · subst hje
        cases hq : p j
        · rfl
        · rw [hq] at hpm; exact absurd rfl hpm
      · exact ih h j (by omega)

/-- The candidate bound is at least one for a nonempty label list. -/
theorem maxColsOf_pos (elts : List String) (cw pad : Nat) (h : elts ≠ []) :
    1 ≤ maxColsOf elts cw pad := by
  rw [maxColsOf]
  have h1 : 1 ≤ elts.length := by
    cases elts with
    | nil => exact absurd rfl h
    | cons a as => simp
  have h2 : 1 ≤ max 1 (cw / (listMin (elts.map String.length) + pad)) := le_max_left _ _
  omega

/-- Splitting a pass at any point: the second half continues from the state
the first half produced. -/
theorem evalCand_append (n cw pad i idx : Nat) (L1 L2 : List Nat) (conf : ColumnConfig) :
    evalCand n cw pad i idx (L1 ++ L2) conf =
      evalCand n cw pad i (idx + L1.length) L2 (evalCand n cw pad i idx L1 conf) := by
  induction L1 generalizing idx conf with
  | nil => simp [evalCand]
  | cons l ls ih =>
    rw [List.cons_append, evalCand, evalCand, ih]
    have he : idx + 1 + ls.length = idx + (ls.length + 1) := by omega
    rw [he]
    rfl

/-- The one-column candidate (position 0) evolves as a running maximum of
the label lengths, frozen once it reaches the console width. -/
theorem evalCand_zero_frozenMax (n cw pad idx m0 c : Nat) (L : List Nat)
    (hbound : idx + L.length ≤ n) :
    evalCand n cw pad 0 idx L ⟨c, m0, decide (m0 < cw), [m0]⟩ =
      ⟨c, frozenMax cw m0 L, decide (frozenMax cw m0 L < cw), [frozenMax cw m0 L]⟩ := by
  induction L generalizing idx m0 with
  | nil => rfl
  | cons l ls ih =>
    rw [evalCand, frozenMax]
    have hlc : (l :: ls).length = ls.length + 1 := rfl
    have hidx : idx < n := by omega
    by_cases hm : cw ≤ m0
    · rw [if_pos hm]
      have hv : (⟨c, m0, decide (m0 < cw), [m0]⟩ : ColumnConfig).valid = false := by
        show decide (m0 < cw) = false
        rw [decide_eq_false_iff_not]
        omega
      rw [stepConf_invalid n cw pad idx l 0 _ hv, evalCand_invalid n cw pad 0 (idx + 1) ls _ hv]
    · rw [if_neg hm]
      have hv : (⟨c, m0, decide (m0 < cw), [m0]⟩ : ColumnConfig).valid = true := by
        show decide (m0 < cw) = true
        rw [decide_eq_true_iff]
        omega
      have hc0 : idx / ((n + 0) / (0 + 1)) = 0 := by
        have hn1 : (n + 0) / (0 + 1) = n := by simp
        rw [hn1]
        exact Nat.div_eq_of_lt hidx
      have hstep : stepConf n cw pad idx l 0 ⟨c, m0, decide (m0 < cw), [m0]⟩ =
          ⟨c, max m0 l, decide (max m0 l < cw), [max m0 l]⟩ := by
        by_cases hl : m0 < l
        · rcases stepConf_cases n cw pad idx l 0 ⟨c, m0, decide (m0 < cw), [m0]⟩ with
            ⟨hv2, hs⟩ | ⟨hv2, hge, hs⟩ | ⟨hv2, hlt, hs⟩
          · rw [hv] at hv2; cases hv2
          · exfalso
            rw [hc0] at hge
            exact hge (by simpa using hl)
          · rw [hs, hc0]
            have h2 : (if (0 : Nat) < 0 then pad else 0) = 0 := rfl
            have h3 : l + 0 = l := rfl
            have h1 : ((⟨c, m0, decide (m0 < cw), [m0]⟩ : ColumnConfig).widths.getD 0 0) = m0 :=
              rfl
            have h7 : ((⟨c, m0, decide (m0 < cw), [m0]⟩ : ColumnConfig).line_length) = m0 := rfl
            have h5 : ((⟨c, m0, decide (m0 < cw), [m0]⟩ : ColumnConfig).widths.set 0 l) = [l] :=
              rfl
            rw [h2, h3, h1, h7, h5]
            have h8 : m0 + (l - m0) = max m0 l := by omega
            have h9 : max m0 l = l := by omega
            rw [h8, h9]
        · have hmx : max m0 l = m0 := by omega
          rw [hmx]
          rcases stepConf_cases n cw pad idx l 0 ⟨c, m0, decide (m0 < cw), [m0]⟩ with
            ⟨hv2, hs⟩ | ⟨hv2, hge, hs⟩ | ⟨hv2, hlt, hs⟩
          · rw [hv] at hv2; cases hv2
          · exact hs
          · exfalso
            rw [hc0] at hlt
            have h6 : m0 < l := by simpa using hlt
            omega
      rw [hstep]
      exact ih (idx + 1) (max m0 l) (by omega)

/-- The frozen running maximum never exceeds the running maximum. -/
theorem frozenMax_le (cw m0 : Nat) (L : List Nat) :
    frozenMax cw m0 L ≤ max m0 (listMax L) := by
  induction L generalizing m0 with
  | nil => rw [frozenMax]; omega
  | cons l ls ih =>
    rw [frozenMax, listMax]
    by_cases hm : cw ≤ m0
    · rw [if_pos hm]; omega
    · rw [if_neg hm]
      have h := ih (max m0 l)
      omega

/-- Head of the evolved candidate list, for a positive bound. -/
theorem headD_range_map (g : Nat → ColumnConfig) (m : Nat) (hm : 1 ≤ m) (d : ColumnConfig) :
    ((List.range m).map g).headD d = g 0 := by
  cases m with
  | zero => omega
  | succ m2 =>
    rw [List.range_succ_eq_map]
    rfl

/-- The variable planner's result when some candidate survives: the highest
surviving candidate, with zero widths dropped. -/
theorem config_variable_cols_some (elts : List String) (cw pad j : Nat) (h1 : elts ≠ [])
    (h2 : ¬(listMin (elts.map String.length) + pad = 0))
    (hj : largestHit (fun j2 => (candFinal elts cw pad j2).valid) (maxColsOf elts cw pad) =
      some j) :
    config_variable_cols elts cw pad = some (finishConfig (candFinal elts cw pad j)) := by
  cases elts with
  | nil => exact absurd rfl h1
  | cons a as =>
    simp only [candFinal, maxColsOf] at hj
    simp only [config_variable_cols]
    rw [if_neg h2, runPass_init_eq_map, find?_reverse_largestHit, hj]
    simp only [Option.map_some']
    simp only [candFinal]

/-- The variable planner's result when no candidate survives: the frozen
one-column candidate, with zero widths dropped. -/
theorem config_variable_cols_fallback (elts : List String) (cw pad : Nat) (h1 : elts ≠ [])
    (h2 : ¬(listMin (elts.map String.length) + pad = 0))
    (hn : largestHit (fun j2 => (candFinal elts cw pad j2).valid) (maxColsOf elts cw pad) =
      none) :
    config_variable_cols elts cw pad = some (finishConfig (candFinal elts cw pad 0)) := by
  cases elts with
  | nil => exact absurd rfl h1
  | cons a as =>
    simp only [candFinal, maxColsOf] at hn
    simp only [config_variable_cols]
    rw [if_neg h2, runPass_init_eq_map, find?_reverse_largestHit, hn]
    simp only [Option.map_none']
    rw [headD_range_map _ _ (by
      have := maxColsOf_pos (a :: as) cw pad (by simp)
      rw [maxColsOf] at this
      exact this) _]
    simp only [candFinal]

/-- C5 (amended): in the variable strategy's shared evaluation pass, a
candidate's valid flag always equals the test accumulated total < available
width, so the candidate becomes invalid exactly at the first label whose
processing makes the accumulated total reach or exceed available_width (a
total equal to available_width already invalidates it, since the source
test is a strict less-than), and once invalid the candidate is frozen and
never marked valid again for the rest of the pass. -/
theorem C5_amended_invalidation (n cw pad m k : Nat) (L1 L2 : List Nat)
    (hcw : 1 ≤ cw) (hk : k < m) :
    ∃ cfg,
      (runPass n cw pad 0 L1
        ((List.range m).map (fun j => ColumnConfig.init (j + 1))))[k]? = some cfg ∧
      cfg.valid = decide (cfg.line_length < cw) ∧
      (cfg.valid = false →
        (runPass n cw pad 0 (L1 ++ L2)
          ((List.range m).map (fun j => ColumnConfig.init (j + 1))))[k]? = some cfg) := by
  have hinit : (ColumnConfig.init (k + 1)).valid =
      decide ((ColumnConfig.init (k + 1)).line_length < cw) := by
    show true = decide (0 < cw)
    rw [eq_comm, decide_eq_true_iff]
    omega
  refine ⟨evalCand n cw pad k 0 L1 (ColumnConfig.init (k + 1)), ?_, ?_, ?_⟩
  · rw [runPass_getElem?, List.getElem?_map, List.getElem?_range hk]
    rfl
  · exact evalCand_valid_iff n cw pad k 0 L1 (ColumnConfig.init (k + 1)) hinit
  · intro hinv
    rw [runPass_getElem?, List.getElem?_map, List.getElem?_range hk]
    simp only [Option.map_some']
    rw [evalCand_append, evalCand_invalid n cw pad k (0 + L1.length) L2 _ hinv]

/-- C5 witness: the pass on one label of length 2 at available width 2
(padding 1, one candidate) leaves the candidate with total 2 and the valid
flag false, and a longer pass keeps it frozen. -/
theorem C5_witness :
    ∃ cfg,
      (runPass 1 2 1 0 [2]
        ((List.range 1).map (fun j => ColumnConfig.init (j + 1))))[0]? = some cfg ∧
      cfg.valid = decide (cfg.line_length < 2) ∧
      (cfg.valid = false →
        (runPass 1 2 1 0 ([2] ++ [3])
          ((List.range 1).map (fun j => ColumnConfig.init (j + 1))))[0]? = some cfg) :=
  C5_amended_invalidation 1 2 1 1 0 [2] [3] (by decide) (by decide)

/-- C3 (amended): for both strategies the returned layout has as many
widths as columns and every width is positive; and the fitting bound holds
with padding counted inside the widths, not added again: outside the forced
fallback, the uniform layout satisfies sum(widths) ≤ available_width and a
valid variable layout satisfies sum(widths) < available_width. The claim's
bound sum(widths) + (cols - 1) * padding ≤ available_width double-counts
the padding already folded into the widths. -/
theorem C3_amended_invariants (elts : List String) (cw pad : Nat) (h1 : elts ≠ [])
    (hcw : 1 ≤ cw) :
    (listMax (elts.map String.length) + pad ≠ 0 →
      ∃ cfg, config_uniform_cols elts cw pad = some cfg ∧
        cfg.widths.length = cfg.cols ∧ (∀ w ∈ cfg.widths, 1 ≤ w) ∧
        (listMax (elts.map String.length) + pad ≤ cw → cfg.widths.sum ≤ cw)) ∧
    (listMin (elts.map String.length) + pad ≠ 0 →
      ∃ cfg, config_variable_cols elts cw pad = some cfg ∧
        cfg.widths.length = cfg.cols ∧ (∀ w ∈ cfg.widths, 1 ≤ w) ∧
        (cfg.valid = true → cfg.widths.sum < cw)) := by
  constructor
  · intro hml
    cases elts with
    | nil => exact absurd rfl h1
    | cons a as =>
      simp only [config_uniform_cols]
      rw [if_neg hml]
      refine ⟨_, rfl, ?_, ?_, ?_⟩
      · simp
      · intro w hw
        have he := List.eq_of_mem_replicate hw
        omega
      · intro hle
        have hpos : 0 < listMax ((a :: as).map String.length) + pad := by omega
        have hsum : (List.replicate
            (min (a :: as).length (max 1 (cw / (listMax ((a :: as).map String.length) + pad))))
            (listMax ((a :: as).map String.length) + pad)).sum =
            (min (a :: as).length (max 1 (cw / (listMax ((a :: as).map String.length) + pad)))) *
              (listMax ((a :: as).map String.length) + pad) := by
          rw [List.sum_replicate, smul_eq_mul]
        show (List.replicate _ _).sum ≤ cw
        rw [hsum]
        have h1d : 1 ≤ cw / (listMax ((a :: as).map String.length) + pad) :=
          (Nat.one_le_div_iff hpos).mpr hle
        have hdm : cw / (listMax ((a :: as).map String.length) + pad) *
            (listMax ((a :: as).map String.length) + pad) ≤ cw := Nat.div_mul_le_self _ _
        have hmin : min (a :: as).length (max 1 (cw / (listMax ((a :: as).map String.length) + pad))) ≤
            cw / (listMax ((a :: as).map String.length) + pad) := by omega
        calc min (a :: as).length (max 1 (cw / (listMax ((a :: as).map String.length) + pad))) *
              (listMax ((a :: as).map String.length) + pad)
            ≤ cw / (listMax ((a :: as).map String.length) + pad) *
              (listMax ((a :: as).map String.length) + pad) :=
              Nat.mul_le_mul_right _ hmin
          _ ≤ cw := hdm
  · intro hmp
    have hL : (elts.map String.length).length = elts.length := List.length_map _ _
    cases hsel : largestHit (fun j2 => (candFinal elts cw pad j2).valid)
        (maxColsOf elts cw pad) with
    | some j =>
      rw [config_variable_cols_some elts cw pad j h1 hmp hsel]
      refine ⟨_, rfl, rfl, ?_, ?_⟩
      · intro w hw
        have hm2 := (List.mem_filter.mp hw).2
        simp only [bne_iff_ne, ne_eq] at hm2
        omega
      · intro hval
        have hvj : (candFinal elts cw pad j).valid = true := (largestHit_some _ _ _ hsel).2
        have hinit : (ColumnConfig.init (j + 1)).valid =
            decide ((ColumnConfig.init (j + 1)).line_length < cw) := by
          show true = decide (0 < cw)
          rw [eq_comm, decide_eq_true_iff]
          omega
        have hiff := evalCand_valid_iff elts.length cw pad j 0 (elts.map String.length)
          (ColumnConfig.init (j + 1)) hinit
        rw [candFinal] at hvj
        rw [hvj] at hiff
        have hlt : (evalCand elts.length cw pad j 0 (elts.map String.length)
            (ColumnConfig.init (j + 1))).line_length < cw := of_decide_eq_true hiff.symm
        have hsum := evalCand_line_sum elts.length cw pad j 0 (elts.map String.length)
          (ColumnConfig.init (j + 1)) (by simp [ColumnConfig.init]) (by omega)
          (by simp [ColumnConfig.init])
        show ((candFinal elts cw pad j).widths.filter (fun w => w != 0)).sum < cw
        rw [sum_filter_nz]
        rw [candFinal]
        omega
    | none =>
      rw [config_variable_cols_fallback elts cw pad h1 hmp hsel]
      refine ⟨_, rfl, rfl, ?_, ?_⟩
      · intro w hw
        have hm2 := (List.mem_filter.mp hw).2
        simp only [bne_iff_ne, ne_eq] at hm2
        omega
      · intro hval
        have h0 := largestHit_none _ _ hsel 0 (maxColsOf_pos elts cw pad h1)
        have : (finishConfig (candFinal elts cw pad 0)).valid =
            (candFinal elts cw pad 0).valid := rfl
        rw [this, h0] at hval
        cases hval

/-- C3 witness: one one-character label at width 1 and padding 0
instantiates the amended layout invariants for both strategies. -/
theorem C3_witness :
    (listMax (["a"].map String.length) + 0 ≠ 0 →
      ∃ cfg, config_uniform_cols ["a"] 1 0 = some cfg ∧
        cfg.widths.length = cfg.cols ∧ (∀ w ∈ cfg.widths, 1 ≤ w) ∧
        (listMax (["a"].map String.length) + 0 ≤ 1 → cfg.widths.sum ≤ 1)) ∧
    (listMin (["a"].map String.length) + 0 ≠ 0 →
      ∃ cfg, config_variable_cols ["a"] 1 0 = some cfg ∧
        cfg.widths.length = cfg.cols ∧ (∀ w ∈ cfg.widths, 1 ≤ w) ∧
        (cfg.valid = true → cfg.widths.sum < 1)) :=
  C3_amended_invariants ["a"] 1 0 (by decide) (by decide)

/-- C1 (amended): both planners return at least one column, the variable
planner under the proviso that some label is nonempty (its zero-width
filter drops all columns of an all-empty list). When no multi-column
arrangement fits, the layout has exactly one column, but its width is not
the longest label's length as claimed: the uniform fallback width is the
longest label's length plus the padding, and the variable fallback width is
the running maximum of the label lengths frozen at the first point it
reaches the available width, a value between the available width and the
longest label's length. -/
theorem C1_amended_layout_guarantees (elts : List String) (cw pad : Nat) (h1 : elts ≠ [])
    (hcw : 1 ≤ cw) :
    (listMax (elts.map String.length) + pad ≠ 0 →
      ∃ cfg, config_uniform_cols elts cw pad = some cfg ∧ 1 ≤ cfg.cols ∧
        (cw < listMax (elts.map String.length) + pad →
          cfg.cols = 1 ∧ cfg.widths = [listMax (elts.map String.length) + pad])) ∧
    (listMin (elts.map String.length) + pad ≠ 0 →
      ∃ cfg, config_variable_cols elts cw pad = some cfg ∧
        (1 ≤ listMax (elts.map String.length) → 1 ≤ cfg.cols) ∧
        (cfg.valid = false →
          cfg.cols = 1 ∧
          cfg.widths = [frozenMax cw 0 (elts.map String.length)] ∧
          cw ≤ frozenMax cw 0 (elts.map String.length) ∧
          frozenMax cw 0 (elts.map String.length) ≤ listMax (elts.map String.length))) := by
  have hL : (elts.map String.length).length = elts.length := List.length_map _ _
  have hLne : elts.map String.length ≠ [] := by
    cases elts with
    | nil => exact absurd rfl h1
    | cons a as => simp
  have hn1 : 1 ≤ elts.length := by
    cases elts with
    | nil => exact absurd rfl h1
    | cons a as => simp
  constructor
  · intro hml
    cases elts with
    | nil => exact absurd rfl h1
    | cons a as =>
      simp only [config_uniform_cols]
      rw [if_neg hml]
      refine ⟨_, rfl, ?_, ?_⟩
      · show 1 ≤ min (a :: as).length (max 1 (cw / (listMax ((a :: as).map String.length) + pad)))
        have hl1 : 1 ≤ (a :: as).length := by simp
        have hl2 : 1 ≤ max 1 (cw / (listMax ((a :: as).map String.length) + pad)) :=
          le_max_left _ _
        omega
      · intro hfb
        have hd0 : cw / (listMax ((a :: as).map String.length) + pad) = 0 :=
          Nat.div_eq_of_lt hfb
        have hc1 : min (a :: as).length
            (max 1 (cw / (listMax ((a :: as).map String.length) + pad))) = 1 := by
          rw [hd0]
          have hl1 : 1 ≤ (a :: as).length := by simp
          omega
        constructor
        · exact hc1
        · show List.replicate (min (a :: as).length
              (max 1 (cw / (listMax ((a :: as).map String.length) + pad))))
              (listMax ((a :: as).map String.length) + pad) = _
          rw [hc1]
          rfl
  · intro hmp
    cases hsel : largestHit (fun j2 => (candFinal elts cw pad j2).valid)
        (maxColsOf elts cw pad) with
    | some j =>
      rw [config_variable_cols_some elts cw pad j h1 hmp hsel]
      have hvj : (candFinal elts cw pad j).valid = true := (largestHit_some _ _ _ hsel).2
      refine ⟨_, rfl, ?_, ?_⟩
      · intro hmax1
        have hvj2 : (evalCand elts.length cw pad j 0 (elts.map String.length)
            (ColumnConfig.init (j + 1))).valid = true := by
          rw [candFinal] at hvj
          exact hvj
        obtain ⟨k, hk, hge⟩ := evalCand_covers elts.length cw pad j 0
          (elts.map String.length) (ColumnConfig.init (j + 1))
          (by simp [ColumnConfig.init]) (by omega) hvj2
          (listMax (elts.map String.length)) (listMax_mem _ hLne)
        have hklen : k < (candFinal elts cw pad j).widths.length := by
          rw [candFinal, evalCand_widths_length]
          simp [ColumnConfig.init]
          omega
        have hge2 : 1 ≤ (candFinal elts cw pad j).widths.getD k 0 := by
          rw [candFinal]
          omega
        exact filter_nz_pos _ k hklen hge2
      · intro hvf
        have : (finishConfig (candFinal elts cw pad j)).valid =
            (candFinal elts cw pad j).valid := rfl
        rw [this, hvj] at hvf
        cases hvf
    | none =>
      rw [config_variable_cols_fallback elts cw pad h1 hmp hsel]
      have h0 := largestHit_none _ _ hsel 0 (maxColsOf_pos elts cw pad h1)
      have hinit : ColumnConfig.init 1 = ⟨1, 0, decide (0 < cw), [0]⟩ := by
        rw [ColumnConfig.init]
        rw [show (true : Bool) = decide (0 < cw) by rw [eq_comm, decide_eq_true_iff]; omega]
        rfl
      have hchar : candFinal elts cw pad 0 =
          ⟨1, frozenMax cw 0 (elts.map String.length),
            decide (frozenMax cw 0 (elts.map String.length) < cw),
            [frozenMax cw 0 (elts.map String.length)]⟩ := by
        rw [candFinal, hinit]
        exact evalCand_zero_frozenMax elts.length cw pad 0 0 1 (elts.map String.length)
          (by omega)
      have hfrz : cw ≤ frozenMax cw 0 (elts.map String.length) := by
        rw [hchar] at h0
        have h2 : decide (frozenMax cw 0 (elts.map String.length) < cw) = false := h0
        rw [decide_eq_false_iff_not] at h2
        omega
      have hfm1 : 1 ≤ frozenMax cw 0 (elts.map String.length) := by omega
      have hb : ((frozenMax cw 0 (elts.map String.length)) != 0) = true := by
        simp only [bne_iff_ne, ne_eq]
        omega
      have hfil : ([frozenMax cw 0 (elts.map String.length)] : List Nat).filter
          (fun w => w != 0) = [frozenMax cw 0 (elts.map String.length)] := by
        simp [List.filter_cons, hb]
      have hfin : finishConfig (candFinal elts cw pad 0) =
          ⟨1, frozenMax cw 0 (elts.map String.length),
            decide (frozenMax cw 0 (elts.map String.length) < cw),
            [frozenMax cw 0 (elts.map String.length)]⟩ := by
        rw [hchar]
        simp only [finishConfig]
        rw [hfil]
        rfl
      refine ⟨_, rfl, ?_, ?_⟩
      · intro hmax1
        rw [hfin]
      · intro hvf
        rw [hfin]
        have hle := frozenMax_le cw 0 (elts.map String.length)
        exact ⟨rfl, rfl, hfrz, by omega⟩

/-- C1 witness: the label list ["ab"] at width 5 with padding 2
instantiates the amended layout guarantees for both strategies. -/
theorem C1_witness :
    (listMax (["ab"].map String.length) + 2 ≠ 0 →
      ∃ cfg, config_uniform_cols ["ab"] 5 2 = some cfg ∧ 1 ≤ cfg.cols ∧
        (5 < listMax (["ab"].map String.length) + 2 →
          cfg.cols = 1 ∧ cfg.widths = [listMax (["ab"].map String.length) + 2])) ∧
    (listMin (["ab"].map String.length) + 2 ≠ 0 →
      ∃ cfg, config_variable_cols ["ab"] 5 2 = some cfg ∧
        (1 ≤ listMax (["ab"].map String.length) → 1 ≤ cfg.cols) ∧
        (cfg.valid = false →
          cfg.cols = 1 ∧
          cfg.widths = [frozenMax 5 0 (["ab"].map String.length)] ∧
          5 ≤ frozenMax 5 0 (["ab"].map String.length) ∧
          frozenMax 5 0 (["ab"].map String.length) ≤ listMax (["ab"].map String.length))) :=
  C1_amended_layout_guarantees ["ab"] 5 2 (by decide) (by decide)

/-!
Machinery for the monotonicity of the variable strategy in the available
width.
-/

/-- A candidate that survives a pass at some width evolves identically at
any larger width. -/
theorem evalCand_cw_mono (n cw cw2 pad i idx : Nat) (L : List Nat) (conf : ColumnConfig)
    (hcw : cw ≤ cw2) (hv0 : conf.valid = true)
    (hval : (evalCand n cw pad i idx L conf).valid = true) :
    evalCand n cw2 pad i idx L conf = evalCand n cw pad i idx L conf := by
  induction L generalizing idx conf with
  | nil => rfl
  | cons l ls ih =>
    rw [evalCand] at hval
    rw [evalCand, evalCand]
    have hsv : (stepConf n cw pad idx l i conf).valid = true :=
      evalCand_valid_of n cw pad i (idx + 1) ls _ hval
    have hstep : stepConf n cw2 pad idx l i conf = stepConf n cw pad idx l i conf := by
      rcases stepConf_cases n cw pad idx l i conf with ⟨hv, hs⟩ | ⟨hv, hge, hs⟩ | ⟨hv, hlt, hs⟩
      · rw [hv0] at hv; cases hv
      · rw [hs]
        rcases stepConf_cases n cw2 pad idx l i conf with
          ⟨hv2, hs2⟩ | ⟨hv2, hge2, hs2⟩ | ⟨hv2, hlt2, hs2⟩
        · rw [hv0] at hv2; cases hv2
        · rw [hs2]
        · exact absurd hlt2 hge
      · rcases stepConf_cases n cw2 pad idx l i conf with
          ⟨hv2, hs2⟩ | ⟨hv2, hge2, hs2⟩ | ⟨hv2, hlt2, hs2⟩
        · rw [hv0] at hv2; cases hv2
        · exact absurd hlt hge2
        · rw [hs, hs2]
          have hll : conf.line_length +
              (l + (if idx / ((n + i) / (i + 1)) < i then pad else 0) -
                conf.widths.getD (idx / ((n + i) / (i + 1))) 0) < cw := by
            rw [hs] at hsv
            exact of_decide_eq_true hsv
          have hll2 : conf.line_length +
              (l + (if idx / ((n + i) / (i + 1)) < i then pad else 0) -
                conf.widths.getD (idx / ((n + i) / (i + 1))) 0) < cw2 := by omega
          simp only [ColumnConfig.mk.injEq]
          refine ⟨trivial, trivial, ?_, trivial⟩
          rw [decide_eq_true hll2, decide_eq_true hll]
    rw [hstep]
    exact ih (idx + 1) _ hsv hval

/-- Effect of one step on an arbitrary width slot, for a valid
configuration: the slot becomes the maximum of its old value and the
label's accounted length when the label lands in it. -/
theorem stepConf_getD_max (n cw pad idx len i k : Nat) (conf : ColumnConfig)
    (hval : conf.valid = true) (hlen : conf.widths.length = i + 1) (hidx : idx < n) :
    (stepConf n cw pad idx len i conf).widths.getD k 0 =
      max (conf.widths.getD k 0)
        (if colOf n (i + 1) idx = k then padLen (i + 1) pad k len else 0) := by
  have hco : colOf n (i + 1) idx = idx / ((n + i) / (i + 1)) := by
    rw [colOf]
    have he : n + (i + 1) - 1 = n + i := by omega
    rw [he]
  have hpl : padLen (i + 1) pad k len = len + (if k < i then pad else 0) := by
    rw [padLen]
    have he : i + 1 - 1 = i := by omega
    rw [he]
  rw [hco, hpl]
  rcases stepConf_cases n cw pad idx len i conf with ⟨hv, hs⟩ | ⟨hv, hge, hs⟩ | ⟨hv, hlt, hs⟩
  · rw [hval] at hv; cases hv
  · rw [hs]
    by_cases hck : idx / ((n + i) / (i + 1)) = k
    · rw [if_pos hck, ← hck]
      omega
    · rw [if_neg hck]
      omega
  · rw [hs, getD_set_ite]
    by_cases hck : idx / ((n + i) / (i + 1)) = k
    · rw [if_pos ⟨hck, by rw [hlen]; exact col_lt_length n i idx hidx⟩, if_pos hck, ← hck]
      omega
    · rw [if_neg (fun hc => hck hc.1), if_neg hck]
      omega

/-- Width slots of a configuration that survives a whole pass: the maximum
of the initial slot and the accounted lengths of the labels landing in that
column. -/
theorem evalCand_widths_getD (n cw pad i idx k : Nat) (L : List Nat) (conf : ColumnConfig)
    (hlen : conf.widths.length = i + 1) (hbound : idx + L.length ≤ n)
    (hval : (evalCand n cw pad i idx L conf).valid = true) :
    (evalCand n cw pad i idx L conf).widths.getD k 0 =
      max (conf.widths.getD k 0) (colAcc n (i + 1) pad k idx L) := by
  induction L generalizing idx conf with
  | nil =>
    simp only [evalCand, colAcc]
    omega
  | cons l ls ih =>
    have hcv : conf.valid = true := evalCand_valid_of n cw pad i idx (l :: ls) conf hval
    rw [evalCand] at hval ⊢
    rw [colAcc]
    have hlc : (l :: ls).length = ls.length + 1 := rfl
    have hidx : idx < n := by omega
    rw [ih (idx + 1) _ (by rw [stepConf_widths_length]; exact hlen) (by omega) hval]
    rw [stepConf_getD_max n cw pad idx l i k conf hcv hlen hidx]
    omega

/-- The width list of a surviving candidate is its column-maximum
specification. -/
theorem candFinal_widths (elts : List String) (cw pad j : Nat)
    (hval : (candFinal elts cw pad j).valid = true) :
    (candFinal elts cw pad j).widths =
      specWidths elts.length (j + 1) pad (elts.map String.length) := by
  have hL : (elts.map String.length).length = elts.length := List.length_map _ _
  apply List.ext_getElem
  · rw [candFinal, evalCand_widths_length]
    simp [ColumnConfig.init, specWidths]
  · intro k h1 h2
    have hg := evalCand_widths_getD elts.length cw pad j 0 k (elts.map String.length)
      (ColumnConfig.init (j + 1)) (by simp [ColumnConfig.init]) (by omega)
      (by rw [candFinal] at hval; exact hval)
    have hz : (ColumnConfig.init (j + 1)).widths.getD k 0 = 0 := by
      simp [ColumnConfig.init]
    rw [hz, Nat.zero_max] at hg
    simp only [candFinal] at h1 ⊢
    simp only [specWidths, List.getElem_map, List.getElem_range]
    rw [← hg]
    exact (List.getD_eq_getElem _ 0 h1).symm

/-- Columns past the used range collect nothing. -/
theorem colAcc_high (n c pad k idx : Nat) (L : List Nat) (hc : 1 ≤ c) (hn : 1 ≤ n)
    (hbound : idx + L.length ≤ n) (hk : usedCols n c ≤ k) :
    colAcc n c pad k idx L = 0 := by
  induction L generalizing idx with
  | nil => rfl
  | cons l ls ih =>
    rw [colAcc]
    have hlc : (l :: ls).length = ls.length + 1 := rfl
    have hidx : idx < n := by omega
    have hcol : colOf n c idx ≠ k := by
      have hle : colOf n c idx ≤ (n - 1) / ((n + c - 1) / c) := by
        rw [colOf]
        exact Nat.div_le_div_right (by omega)
      rw [usedCols] at hk
      omega
    rw [if_neg hcol, ih (idx + 1) (by omega)]
    omega

/-- A single landing label bounds its column's accumulator from below. -/
theorem colAcc_ge_single (n c pad k idx t : Nat) (L : List Nat) (ht : t < L.length)
    (hcol : colOf n c (idx + t) = k) :
    padLen c pad k (L.getD t 0) ≤ colAcc n c pad k idx L := by
  induction L generalizing idx t with
  | nil => exact absurd ht (Nat.not_lt_zero t)
  | cons l ls ih =>
    cases t with
    | zero =>
      rw [colAcc]
      have h0 : idx + 0 = idx := rfl
      rw [h0] at hcol
      rw [if_pos hcol]
      have hg : (l :: ls).getD 0 0 = l := rfl
      rw [hg]
      exact le_max_left _ _
    | succ t2 =>
      rw [colAcc]
      have hg : (l :: ls).getD (t2 + 1) 0 = ls.getD t2 0 := rfl
      rw [hg]
      have hcol2 : colOf n c (idx + 1 + t2) = k := by
        have he : idx + 1 + t2 = idx + (t2 + 1) := by omega
        rw [he]
        exact hcol
      have ht2 : t2 < ls.length := by
        have hlc : (l :: ls).length = ls.length + 1 := rfl
        omega
      exact le_trans (ih (idx + 1) t2 ht2 hcol2) (le_max_right _ _)

/-- Counting nonzero entries of a mapped list as a filter over the domain. -/
theorem length_filter_map_nz (f : Nat → Nat) (l : List Nat) :
    ((l.map f).filter (fun w => w != 0)).length =
      (l.filter (fun k => f k != 0)).length := by
  induction l with
  | nil => rfl
  | cons a as ih =>
    rw [List.map_cons, List.filter_cons, List.filter_cons]
    by_cases h : (f a != 0) = true
    · rw [if_pos h, if_pos h]
      simp [ih]
    · rw [if_neg h, if_neg h]
      exact ih

/-- A filter over an initial range is bounded by any point past which the
predicate fails. -/
theorem filter_range_le (p : Nat → Bool) (c u : Nat)
    (h : ∀ k, u ≤ k → k < c → p k = false) :
    ((List.range c).filter p).length ≤ u := by
  induction c with
  | zero => simp
  | succ c2 ih =>
    by_cases hcu : u ≤ c2
    · rw [List.range_succ, List.filter_append, List.length_append]
      have hp : p c2 = false := h c2 hcu (by omega)
      have h2 : ([c2] : List Nat).filter p = [] := by
        rw [List.filter_cons, if_neg (by rw [hp]; exact Bool.false_ne_true)]
        rfl
      rw [h2]
      have h3 := ih (fun k hk1 hk2 => h k hk1 (by omega))
      simp only [List.length_nil]
      omega
    · have hle := List.length_filter_le p (List.range (c2 + 1))
      rw [List.length_range] at hle
      omega

/-- A filter over an initial range is at least any point below which the
predicate holds. -/
theorem filter_range_ge (p : Nat → Bool) (c a : Nat) (hac : a ≤ c)
    (h : ∀ k, k < a → p k = true) :
    a ≤ ((List.range c).filter p).length := by
  have h2 : (List.range a).filter p = List.range a := by
    rw [List.filter_eq_self]
    intro k hk
    exact h k (List.mem_range.mp hk)
  have hs : List.Sublist (List.range a) (List.range c) := List.range_sublist.mpr hac
  have h3 : ((List.range a).filter p).length ≤ ((List.range c).filter p).length :=
    (hs.filter p).length_le
  rw [h2, List.length_range] at h3
  exact h3

/-- Upper bound: a candidate's nonzero widths fit in its used columns. -/
theorem specWidths_count_le (n c pad : Nat) (L : List Nat) (hn : 1 ≤ n) (hc : 1 ≤ c)
    (hLn : L.length = n) :
    ((specWidths n c pad L).filter (fun w => w != 0)).length ≤ usedCols n c := by
  rw [specWidths, length_filter_map_nz]
  apply filter_range_le
  intro k hk1 hk2
  have h0 : colAcc n c pad k 0 L = 0 := colAcc_high n c pad k 0 L hc hn (by omega) hk1
  rw [h0]
  rfl

/-- Lower bound: every used column below the candidate's last is nonzero,
as long as labels cannot be both empty and unpadded. -/
theorem specWidths_count_ge (n c pad : Nat) (L : List Nat) (hn : 1 ≤ n) (hc : 1 ≤ c)
    (hLn : L.length = n) (hpos : 1 ≤ listMin L + pad) :
    min (usedCols n c) (c - 1) ≤
      ((specWidths n c pad L).filter (fun w => w != 0)).length := by
  rw [specWidths, length_filter_map_nz]
  apply filter_range_ge
  · have hu := usedCols_le n c hn hc
    omega
  · intro k hk
    have hr1 : 1 ≤ (n + c - 1) / c := ceil_div_pos n c hn hc
    have hku : k < usedCols n c := by omega
    have hkc1 : k < c - 1 := by omega
    have hkle : k ≤ (n - 1) / ((n + c - 1) / c) := by
      rw [usedCols] at hku
      omega
    have ht1 : k * ((n + c - 1) / c) ≤ n - 1 := by
      calc k * ((n + c - 1) / c)
          ≤ ((n - 1) / ((n + c - 1) / c)) * ((n + c - 1) / c) :=
            Nat.mul_le_mul_right _ hkle
        _ ≤ n - 1 := Nat.div_mul_le_self _ _
    have ht : k * ((n + c - 1) / c) < L.length := by omega
    have hcol : colOf n c (0 + k * ((n + c - 1) / c)) = k := by
      rw [colOf]
      have h0 : 0 + k * ((n + c - 1) / c) = k * ((n + c - 1) / c) := by omega
      rw [h0]
      exact Nat.mul_div_cancel _ (by omega)
    have hone := colAcc_ge_single n c pad k 0 (k * ((n + c - 1) / c)) L ht hcol
    rw [padLen, if_pos hkc1] at hone
    have hmem : L.getD (k * ((n + c - 1) / c)) 0 ∈ L := by
      rw [List.getD_eq_getElem L 0 ht]
      exact List.getElem_mem ht
    have hminle := listMin_le L _ hmem
    simp only [bne_iff_ne, ne_eq]
    omega

/-- The count of nonzero widths is monotone in the candidate column count. -/
theorem specWidths_count_mono (n pad c c2 : Nat) (L : List Nat) (hn : 1 ≤ n)
    (hc : 1 ≤ c) (hcc : c ≤ c2) (hc2n : c2 ≤ n) (hLn : L.length = n)
    (hpos : 1 ≤ listMin L + pad) :
    ((specWidths n c pad L).filter (fun w => w != 0)).length ≤
      ((specWidths n c2 pad L).filter (fun w => w != 0)).length := by
  by_cases he : c = c2
  · subst he
    exact le_refl _
  · have h1 := specWidths_count_le n c pad L hn hc hLn
    have h2 := specWidths_count_ge n c2 pad L hn (by omega) hLn hpos
    have h3 := usedCols_mono n c c2 hn hc hcc
    have h4 := usedCols_le n c hn hc
    omega

/-- The candidate bound grows with the available width. -/
theorem maxColsOf_mono (elts : List String) (pad w1 w2 : Nat) (h : w1 ≤ w2) :
    maxColsOf elts w1 pad ≤ maxColsOf elts w2 pad := by
  rw [maxColsOf, maxColsOf]
  have hd : w1 / (listMin (elts.map String.length) + pad) ≤
      w2 / (listMin (elts.map String.length) + pad) := Nat.div_le_div_right h
  omega

/-- The candidate bound never exceeds the number of labels. -/
theorem maxColsOf_le_length (elts : List String) (cw pad : Nat) :
    maxColsOf elts cw pad ≤ elts.length := by
  rw [maxColsOf]
  omega

/-- The finished fallback configuration of the variable planner: one column
holding the frozen running maximum, which has reached the console width. -/
theorem variable_fallback_char (elts : List String) (cw pad : Nat) (hcw : 1 ≤ cw)
    (h0 : (candFinal elts cw pad 0).valid = false) :
    finishConfig (candFinal elts cw pad 0) =
      ⟨1, frozenMax cw 0 (elts.map String.length),
        decide (frozenMax cw 0 (elts.map String.length) < cw),
        [frozenMax cw 0 (elts.map String.length)]⟩ ∧
      cw ≤ frozenMax cw 0 (elts.map String.length) := by
  have hL : (elts.map String.length).length = elts.length := List.length_map _ _
  have hinit : ColumnConfig.init 1 = ⟨1, 0, decide (0 < cw), [0]⟩ := by
    rw [ColumnConfig.init]
    rw [show (true : Bool) = decide (0 < cw) by rw [eq_comm, decide_eq_true_iff]; omega]
    rfl
  have hchar : candFinal elts cw pad 0 =
      ⟨1, frozenMax cw 0 (elts.map String.length),
        decide (frozenMax cw 0 (elts.map String.length) < cw),
        [frozenMax cw 0 (elts.map String.length)]⟩ := by
    rw [candFinal, hinit]
    exact evalCand_zero_frozenMax elts.length cw pad 0 0 1 (elts.map String.length) (by omega)
  have hfrz : cw ≤ frozenMax cw 0 (elts.map String.length) := by
    rw [hchar] at h0
    have h2 : decide (frozenMax cw 0 (elts.map String.length) < cw) = false := h0
    rw [decide_eq_false_iff_not] at h2
    omega
  have hb : ((frozenMax cw 0 (elts.map String.length)) != 0) = true := by
    simp only [bne_iff_ne, ne_eq]
    omega
  have hfil : ([frozenMax cw 0 (elts.map String.length)] : List Nat).filter
      (fun w => w != 0) = [frozenMax cw 0 (elts.map String.length)] := by
    simp [List.filter_cons, hb]
  refine ⟨?_, hfrz⟩
  rw [hchar]
  simp only [finishConfig]
  rw [hfil]
  rfl

/-- A surviving candidate keeps at least one nonzero width when some label
is nonempty. -/
theorem candFinal_cols_pos (elts : List String) (cw pad j : Nat) (h1 : elts ≠ [])
    (hmax1 : 1 ≤ listMax (elts.map String.length))
    (hval : (candFinal elts cw pad j).valid = true) :
    1 ≤ ((candFinal elts cw pad j).widths.filter (fun w => w != 0)).length := by
  have hL : (elts.map String.length).length = elts.length := List.length_map _ _
  have hLne : elts.map String.length ≠ [] := by
    cases elts with
    | nil => exact absurd rfl h1
    | cons a as => simp
  have hvj2 : (evalCand elts.length cw pad j 0 (elts.map String.length)
      (ColumnConfig.init (j + 1))).valid = true := by
    rw [candFinal] at hval
    exact hval
  obtain ⟨k, hk, hge⟩ := evalCand_covers elts.length cw pad j 0
    (elts.map String.length) (ColumnConfig.init (j + 1))
    (by simp [ColumnConfig.init]) (by omega) hvj2
    (listMax (elts.map String.length)) (listMax_mem _ hLne)
  have hklen : k < (candFinal elts cw pad j).widths.length := by
    rw [candFinal, evalCand_widths_length]
    simp [ColumnConfig.init]
    omega
  have hge2 : 1 ≤ (candFinal elts cw pad j).widths.getD k 0 := by
    rw [candFinal]
    omega
  exact filter_nz_pos _ k hklen hge2

/-- C2: for the variable strategy with the label list and padding fixed
(and such that the candidate bound does not divide by zero), the column
count of the returned layout is monotonically non-decreasing in the
available width: at any two widths w1 ≤ w2 with w1 ≥ 1, the layout chosen
at w2 has at least as many columns as the layout chosen at w1. -/
theorem C2_variable_width_monotone (elts : List String) (pad w1 w2 : Nat)
    (h1 : elts ≠ []) (hmp : listMin (elts.map String.length) + pad ≠ 0)
    (hw1 : 1 ≤ w1) (hw : w1 ≤ w2) :
    ∃ c1 c2, config_variable_cols elts w1 pad = some c1 ∧
      config_variable_cols elts w2 pad = some c2 ∧ c1.cols ≤ c2.cols := by
  have hL : (elts.map String.length).length = elts.length := List.length_map _ _
  have hn1 : 1 ≤ elts.length := by
    cases elts with
    | nil => exact absurd rfl h1
    | cons a as => simp
  cases hsel1 : largestHit (fun j => (candFinal elts w1 pad j).valid)
      (maxColsOf elts w1 pad) with
  | some j1 =>
    obtain ⟨hj1m, hj1v⟩ := largestHit_some _ _ _ hsel1
    have heqw : candFinal elts w2 pad j1 = candFinal elts w1 pad j1 := by
      rw [candFinal, candFinal]
      exact evalCand_cw_mono elts.length w1 w2 pad j1 0 (elts.map String.length)
        (ColumnConfig.init (j1 + 1)) hw rfl (by rw [candFinal] at hj1v; exact hj1v)
    have hj1v2 : (candFinal elts w2 pad j1).valid = true := by
      rw [heqw]
      exact hj1v
    have hj1m2 : j1 < maxColsOf elts w2 pad :=
      lt_of_lt_of_le hj1m (maxColsOf_mono elts pad w1 w2 hw)
    obtain ⟨j2, hsel2, hj12⟩ := largestHit_ge (fun j => (candFinal elts w2 pad j).valid)
      (maxColsOf elts w2 pad) j1 hj1m2 hj1v2
    obtain ⟨hj2m, hj2v⟩ := largestHit_some _ _ _ hsel2
    refine ⟨_, _, config_variable_cols_some elts w1 pad j1 h1 hmp hsel1,
      config_variable_cols_some elts w2 pad j2 h1 hmp hsel2, ?_⟩
    show ((candFinal elts w1 pad j1).widths.filter (fun w => w != 0)).length ≤
      ((candFinal elts w2 pad j2).widths.filter (fun w => w != 0)).length
    rw [← heqw]
    rw [candFinal_widths elts w2 pad j1 hj1v2, candFinal_widths elts w2 pad j2 hj2v]
    have hlen2 : j2 + 1 ≤ elts.length := by
      have hml := maxColsOf_le_length elts w2 pad
      omega
    exact specWidths_count_mono elts.length pad (j1 + 1) (j2 + 1) (elts.map String.length)
      (by omega) (by omega) (by omega) hlen2 hL (by omega)
  | none =>
    have h0 := largestHit_none _ _ hsel1 0 (maxColsOf_pos elts w1 pad h1)
    obtain ⟨hfin1, hfrz1⟩ := variable_fallback_char elts w1 pad hw1 h0
    have hmax1 : 1 ≤ listMax (elts.map String.length) := by
      have hle := frozenMax_le w1 0 (elts.map String.length)
      omega
    cases hsel2 : largestHit (fun j => (candFinal elts w2 pad j).valid)
        (maxColsOf elts w2 pad) with
    | some j2 =>
      obtain ⟨hj2m, hj2v⟩ := largestHit_some _ _ _ hsel2
      refine ⟨_, _, config_variable_cols_fallback elts w1 pad h1 hmp hsel1,
        config_variable_cols_some elts w2 pad j2 h1 hmp hsel2, ?_⟩
      rw [hfin1]
      show 1 ≤ ((candFinal elts w2 pad j2).widths.filter (fun w => w != 0)).length
      exact candFinal_cols_pos elts w2 pad j2 h1 hmax1 hj2v
    | none =>
      have h02 := largestHit_none _ _ hsel2 0 (maxColsOf_pos elts w2 pad h1)
      obtain ⟨hfin2, hfrz2⟩ := variable_fallback_char elts w2 pad (by omega) h02
      refine ⟨_, _, config_variable_cols_fallback elts w1 pad h1 hmp hsel1,
        config_variable_cols_fallback elts w2 pad h1 hmp hsel2, ?_⟩
      rw [hfin1, hfin2]

/-- C2 witness: the labels ["a", "bb"] with padding 2 at widths 3 and 9
instantiate the monotonicity of the chosen column count. -/
theorem C2_witness :
    ∃ c1 c2, config_variable_cols ["a", "bb"] 3 2 = some c1 ∧
      config_variable_cols ["a", "bb"] 9 2 = some c2 ∧ c1.cols ≤ c2.cols :=
  C2_variable_width_monotone ["a", "bb"] 2 3 9 (by decide) (by decide) (by decide) (by decide)

/-- colify reads the width option and the terminal size only through the
effective console width: calls agreeing on every other option and on that
width behave identically. -/
theorem colify_eff_congr (elts : List String) (o1 o2 : ColifyOptions) (tc1 tc2 : Int)
    (ha : o1.output_isatty = o2.output_isatty) (hi : o1.indent = o2.indent)
    (hp : o1.padding = o2.padding) (ht : o1.tty = o2.tty) (hm : o1.method = o2.method)
    (hk : o1.unknownKeys = o2.unknownKeys)
    (he : effectiveConsoleCols o1 tc1 = effectiveConsoleCols o2 tc2) :
    colify elts o1 tc1 = colify elts o2 tc2 := by
  obtain ⟨a1, i1, p1, t1, m1, w1, k1⟩ := o1
  obtain ⟨a2, i2, p2, t2, m2, w2, k2⟩ := o2
  simp only at ha hi hp ht hm hk
  subst ha hi hp ht hm hk
  simp only [colify]
  rw [he]

/-- C10: the planners never see the raw width. A supplied width of 0 is
falsy in the source and triggers terminal-size autodetection, exactly as an
unset width. The width handed to a planner is
max(1, effective_width - indent), and whenever an interactive call returns
a layout, that layout is precisely the one the selected planner computes at
that budget. -/
theorem C10_planner_width_budget (elts : List String) (opts : ColifyOptions) (tc : Int) :
    (opts.width = some 0 →
      colify elts opts tc = colify elts { opts with width := none } tc) ∧
    (∀ w : Int, opts.width = some w → w ≠ 0 →
      effectiveConsoleCols opts tc = (max 1 (w - (opts.indent : Int))).toNat) ∧
    (opts.unknownKeys = [] → opts.tty = some true → opts.method = "variable" →
      elts ≠ [] →
      ∀ out cols widths, colify elts opts tc = .ok (out, cols, widths) →
        ∃ cfg, config_variable_cols elts (effectiveConsoleCols opts tc) opts.padding =
          some cfg ∧ cols = cfg.cols ∧ widths = cfg.widths) ∧
    (opts.unknownKeys = [] → opts.tty = some true → opts.method = "uniform" →
      elts ≠ [] →
      ∀ out cols widths, colify elts opts tc = .ok (out, cols, widths) →
        ∃ cfg, config_uniform_cols elts (effectiveConsoleCols opts tc) opts.padding =
          some cfg ∧ cols = cfg.cols ∧ widths = cfg.widths) := by
  refine ⟨?_, ?_, ?_, ?_⟩
  · intro h0
    refine colify_eff_congr elts opts { opts with width := none } tc tc rfl rfl rfl rfl rfl rfl ?_
    obtain ⟨a1, i1, p1, t1, m1, w1, k1⟩ := opts
    simp only at h0
    subst h0
    rfl
  · intro w hw hw0
    obtain ⟨a1, i1, p1, t1, m1, w1, k1⟩ := opts
    simp only at hw ⊢
    subst hw
    simp only [effectiveConsoleCols]
    rw [if_neg hw0]
  · intro hk ht hm hne out cols widths hok
    obtain ⟨a1, i1, p1, t1, m1, w1, k1⟩ := opts
    simp only at hk ht hm ⊢
    subst hk ht hm
    cases elts with
    | nil => exact absurd rfl hne
    | cons a as =>
      rw [colify] at hok
      rw [if_neg (by
        intro hcon
        exact hcon.1 rfl)] at hok
      cases hcfg : config_variable_cols (a :: as)
          (effectiveConsoleCols ⟨a1, i1, p1, some true, "variable", w1, []⟩ tc) p1 with
      | none =>
        simp only [hcfg, eq_self_iff_true, if_true] at hok
        cases hok
      | some cfg =>
        simp only [hcfg, eq_self_iff_true, if_true] at hok
        refine ⟨cfg, rfl, ?_⟩
        by_cases hz : cfg.cols = 0
        · rw [if_pos hz] at hok
          cases hok
        · rw [if_neg hz] at hok
          cases hrend : renderRows (a :: as) (cfg.widths.dropLast.map some ++ [none]) i1
              ((a :: as).length % (((a :: as).length + cfg.cols - 1) / cfg.cols))
              (((a :: as).length + cfg.cols - 1) / cfg.cols)
              (((a :: as).length + cfg.cols - 1) / cfg.cols) 0 cfg.cols [] with
          | error e =>
            rw [hrend] at hok
            cases hok
          | ok out2 =>
            rw [hrend] at hok
            simp only [Except.ok.injEq, Prod.mk.injEq] at hok
            exact ⟨hok.2.1.symm, hok.2.2.symm⟩
  · intro hk ht hm hne out cols widths hok
    obtain ⟨a1, i1, p1, t1, m1, w1, k1⟩ := opts
    simp only at hk ht hm ⊢
    subst hk ht hm
    cases elts with
    | nil => exact absurd rfl hne
    | cons a as =>
      rw [colify] at hok
      rw [if_neg (by
        intro hcon
        exact hcon.1 rfl)] at hok
      cases hcfg : config_uniform_cols (a :: as)
          (effectiveConsoleCols ⟨a1, i1, p1, some true, "uniform", w1, []⟩ tc) p1 with
      | none =>
        simp only [hcfg, eq_self_iff_true, if_true,
          eq_false (show ¬("uniform" = "variable") by decide), if_false] at hok
        cases hok
      | some cfg =>
        simp only [hcfg, eq_self_iff_true, if_true,
          eq_false (show ¬("uniform" = "variable") by decide), if_false] at hok
        refine ⟨cfg, rfl, ?_⟩
        by_cases hz : cfg.cols = 0
        · rw [if_pos hz] at hok
          cases hok
        · rw [if_neg hz] at hok
          cases hrend : renderRows (a :: as) (cfg.widths.dropLast.map some ++ [none]) i1
              ((a :: as).length % (((a :: as).length + cfg.cols - 1) / cfg.cols))
              (((a :: as).length + cfg.cols - 1) / cfg.cols)
              (((a :: as).length + cfg.cols - 1) / cfg.cols) 0 cfg.cols [] with
          | error e =>
            rw [hrend] at hok
            cases hok
          | ok out2 =>
            rw [hrend] at hok
            simp only [Except.ok.injEq, Prod.mk.injEq] at hok
            exact ⟨hok.2.1.symm, hok.2.2.symm⟩

/-- C10 witness: width 0 autodetects like an unset width, a width of 10
with indent 3 gives the planner budget max(1, 10 - 3), and a returned
layout is the variable planner's output at the effective budget. -/
theorem C10_witness :
    (colify ["a"] ⟨true, 0, 2, some true, "variable", some 0, []⟩ 30 =
      colify ["a"] ⟨true, 0, 2, some true, "variable", none, []⟩ 30) ∧
    (effectiveConsoleCols ⟨true, 3, 2, some true, "variable", some 10, []⟩ 0 =
      (max 1 ((10 : Int) - ((3 : Nat) : Int))).toNat) ∧
    (∃ cfg, config_variable_cols ["a"]
        (effectiveConsoleCols ⟨true, 0, 2, some true, "variable", some 30, []⟩ 0) 2 =
        some cfg ∧ (1 : Nat) = cfg.cols ∧ ([1] : List Nat) = cfg.widths) := by
  refine ⟨?_, ?_, ?_⟩
  · exact (C10_planner_width_budget ["a"]
      ⟨true, 0, 2, some true, "variable", some 0, []⟩ 30).1 rfl
  · exact (C10_planner_width_budget ["a"]
      ⟨true, 3, 2, some true, "variable", some 10, []⟩ 0).2.1 10 rfl (by decide)
  · exact (C10_planner_width_budget ["a"]
      ⟨true, 0, 2, some true, "variable", some 30, []⟩ 0).2.2.1 rfl rfl rfl (by decide)
      ["", "a", "\n"] 1 [1] rfl
